/-
Verification of the version-state resolution and switching engine of the
goversion command-line tool (src/commands.go) against its specification.

Strings are modelled as lists of characters (`Str`).  The filesystem
abstraction `fsx` of the Go code is modelled by the `FsxOps` structure of
operation maps over an abstract state type; the concrete on-disk behaviour
of the bin directory and the sdk directory is given by the `RealGobin` and
`RealSdk` instances over explicit states.
-/
import Mathlib

/-- Strings of the Go program are modelled as lists of characters. -/
abbrev Str := List Char

/-- Converts a Lean string literal to the `Str` model. -/
def str (s : String) : Str := s.data

/-- Tests for an ASCII decimal digit, the character class `[0-9]` of `versionRE`. -/
def isDig (c : Char) : Bool := decide ('0'.toNat ≤ c.toNat ∧ c.toNat ≤ '9'.toNat)

/-- Tests for a nonzero ASCII decimal digit, the character class `[1-9]` of `versionRE`. -/
def isNZ (c : Char) : Bool := decide ('1'.toNat ≤ c.toNat ∧ c.toNat ≤ '9'.toNat)

/-- Models Go `strings.Split(s, sep)` for a single-character separator `sep`
(the only form the program uses, with `sep = " "`): splits at every occurrence
of the separator, keeping empty fields. -/
def splitCh (sep : Char) : Str → List Str
  | [] => [[]]
  | c :: rest =>
    match splitCh sep rest with
    | [] => [[c]]
    | h :: t => if c = sep then [] :: h :: t else (c :: h) :: t

/-- Tests whether `p` is a prefix of `s` (Go `strings.HasPrefix(s, p)`). -/
def hasPref : Str → Str → Bool
  | [], _ => true
  | _ :: _, [] => false
  | p :: ps, s :: ss => decide (p = s) && hasPref ps ss

/-- Models Go `strings.TrimPrefix(s, pre)`: drops `pre` from the front of `s`
when it is a prefix, otherwise returns `s` unchanged. -/
def trimPref (s pre : Str) : Str := if hasPref pre s then s.drop pre.length else s

/-- Models Go `filepath.Base` for ordinary paths (no trailing slash): the part
of the path after the last `/`. -/
def baseName (p : Str) : Str := (splitCh '/' p).getLastD []

/- ### The version regular expression

Source line 22:
  var versionRE = regexp.MustCompile("^1(\.[1-9][0-9]*)?(\.[1-9][0-9]*)?((rc|beta)[1-9]+)?$")
The regex is embedded as a deterministic parser.  The three groups are
delimited unambiguously (a group can only start with `.`, `r` or `b`, never
with a digit), so greedy maximal-munch scanning recognises exactly the
language of the regex. -/

/-- Consumes one `\.[1-9][0-9]*` group from the front of the input: a dot, a
nonzero digit, then a maximal run of digits.  Returns the rest of the input,
or `none` when the front of the input is not such a group. -/
def chompNum : Str → Option Str
  | [] => none
  | [_] => none
  | c1 :: c2 :: rest =>
    if c1 = '.' then (if isNZ c2 then some (rest.dropWhile isDig) else none) else none

/-- Consumes the tag of a pre-release suffix, the alternation `(rc|beta)`. -/
def chompTag (l : Str) : Option Str :=
  if hasPref ['r', 'c'] l then some (l.drop 2)
  else if hasPref ['b', 'e', 't', 'a'] l then some (l.drop 4)
  else none

/-- Consumes one `(rc|beta)[1-9]+` group from the front of the input: the
literal tag `rc` or `beta`, then a maximal nonempty run of nonzero digits. -/
def chompSuffix (l : Str) : Option Str :=
  match chompTag l with
  | none => none
  | some t =>
    match t with
    | [] => none
    | c :: rest => if isNZ c then some (rest.dropWhile isNZ) else none

/-- Applies an optional (`?`) group: consume it when it is present, otherwise
leave the input unchanged. -/
def opt (f : Str → Option Str) (l : Str) : Str := (f l).getD l

/-- Models `versionRE.MatchString`: a leading `1`, at most two `\.[1-9][0-9]*`
groups, an optional `(rc|beta)[1-9]+` suffix, then end of input. -/
def versionREmatch : Str → Bool
  | [] => false
  | c :: rest =>
    decide (c = '1') && (opt chompSuffix (opt chompNum (opt chompNum rest))).isEmpty

/- ### The version grammar as the specification states it -/

/-- A `.MINOR` or `.PATCH` component: a dot followed by a positive integer
with no leading zero. -/
def DotNumP (m : Str) : Prop :=
  ∃ d ds, m = '.' :: d :: ds ∧ isNZ d = true ∧ ∀ c ∈ ds, isDig c = true

/-- The pre-release tag: the literal `rc` or `beta`. -/
def TagP (t : Str) : Prop := t = ['r', 'c'] ∨ t = ['b', 'e', 't', 'a']

/-- A pre-release suffix: a tag followed by a number of shape `num`. -/
def SuffixP (num : Str → Prop) (x : Str) : Prop :=
  ∃ t n, x = t ++ n ∧ TagP t ∧ num n

/-- The claim's shape for the suffix number N: a positive integer with no
leading zero. -/
def claimNumP (n : Str) : Prop :=
  ∃ d ds, n = d :: ds ∧ isNZ d = true ∧ ∀ c ∈ ds, isDig c = true

/-- The shape of the suffix number actually accepted by `versionRE`
(`[1-9]+`): a nonempty run of digits none of which is `0`. -/
def amendNumP (n : Str) : Prop := n ≠ [] ∧ ∀ c ∈ n, isNZ c = true

/-- The grammar `1[.MINOR][.PATCH][(rc|beta)N]`, parameterised by the shape
of the suffix number N. -/
def GrammarP (num : Str → Prop) (s : Str) : Prop :=
  ∃ m p x, s = '1' :: (m ++ (p ++ x)) ∧ (m = [] ∨ DotNumP m) ∧
    (p = [] ∨ DotNumP p) ∧ (x = [] ∨ SuffixP num x)


/- ### Version ordering

The source sorts the local list with `sort.Slice(list, versionLess)`
(line 267).  The definition of `versionLess` is not among the provided
source files; it is modelled from the specification below. -/

/-- Reads a maximal run of decimal digits from the front of the input as a
natural number, returning the number and the rest of the input. -/
def readNum (l : Str) : Nat × Str :=
  ((l.takeWhile isDig).foldl (fun a c => a * 10 + (c.toNat - '0'.toNat)) 0,
   l.dropWhile isDig)

/-- Modelled from the spec: the sort key of `versionLess`, whose definition is
missing from the provided sources (only its call site at line 268 is present).
Spec section 4.1: releases are compared numerically component-by-component
(major.minor.patch), a pre-release suffix (`rc`/`beta` + number) sorts
strictly before the final release of the same numeric triple, and the suffix
is treated lexicographically (tag, then number).  The key is a list of
naturals compared lexicographically: the numeric triple, then `1` for a final
release or `0` followed by the tag's character codes, a `0` separator and the
suffix number for a pre-release. -/
def versionKey (s : Str) : List Nat :=
  let (maj, r1) := readNum s
  let (minr, r2) := match r1 with
    | '.' :: t => readNum t
    | _ => (0, r1)
  let (pat, r3) := match r2 with
    | '.' :: t => readNum t
    | _ => (0, r2)
  match r3 with
  | [] => [maj, minr, pat, 1]
  | _ =>
    [maj, minr, pat, 0] ++ (r3.takeWhile (fun c => !isDig c)).map Char.toNat
      ++ [0, (readNum (r3.dropWhile (fun c => !isDig c))).1]

/-- Strict lexicographic order on lists of naturals (shorter prefixes first). -/
def keyLt : List Nat → List Nat → Bool
  | [], [] => false
  | [], _ :: _ => true
  | _ :: _, [] => false
  | a :: as, b :: bs => if a < b then true else if b < a then false else keyLt as bs

/-- Modelled from the spec: `versionLess`, the comparison used by
`sort.Slice` — see `versionKey`. -/
def versionLess (a b : Str) : Bool := keyLt (versionKey a) (versionKey b)

/-- The non-strict order induced by `versionLess`: `a` need not come after
`b`.  A slice sorted by `sort.Slice(list, versionLess)` is pairwise ordered
by this relation. -/
def verLe (a b : Str) : Bool := !versionLess b a

/-- Inserts into a list sorted ascending by `verLe`. -/
def insertV (x : Str) : List Str → List Str
  | [] => [x]
  | y :: ys => if verLe x y then x :: y :: ys else y :: insertV x ys

/-- Models `sort.Slice(list, func(i, j int) bool { return versionLess(list[i],
list[j]) })` (lines 267-269): a sort of the list ascending by `versionLess`.
Since distinct keys are totally ordered and equal elements are identical
strings, the sorted result is the one the Go sort produces. -/
def sortVersions : List Str → List Str
  | [] => []
  | x :: xs => insertV x (sortVersions xs)

/- ### The filesystem abstraction and the error model -/

/-- Filesystem error classes the program distinguishes: Go `fs.ErrNotExist`
(tested with `errors.Is` at line 81 and 243), `fs.ErrExist`, and any other
error. -/
inductive FsErr
  | notExist
  | exist
  | other
deriving DecidableEq, Repr

/-- Errors the modelled commands return. -/
inductive Err
  | usage
  | badFormat
  | malformed (v : Str)
  | notInstalled (v : Str)
  | removeMain (v : Str)
  | cmdFail
  | fs (e : FsErr)
deriving DecidableEq, Repr

/-- The result of `fs.Stat`: the file information, of which the program uses
nothing (line 199 discards it). -/
structure FileInfo where
  size : Nat
deriving DecidableEq, Repr

/-- The `fsx` capability interface of the program (spec section 4.2),
over an abstract root state `γ`: read a symlink target, list the directory,
remove an entry, remove recursively, create a symlink, and stat a file. -/
structure FsxOps (γ : Type) where
  readlink : γ → Str → Except FsErr Str
  readDir : γ → Except FsErr (List (Str × Bool))
  remove : γ → Str → Except FsErr γ
  removeAll : γ → Str → Except FsErr γ
  symlink : γ → Str → Str → Except FsErr γ
  stat : γ → Str → Except FsErr FileInfo

/-- The state of the bin directory: its regular entries (name and
is-directory flag) and the target of the symlink named `go`, when present. -/
structure GobinFS where
  files : List (Str × Bool)
  golink : Option Str
deriving DecidableEq, Repr

/-- The state of the sdk directory: the paths that exist under it, each with
a file size. -/
structure SdkFS where
  paths : List (Str × Nat)
deriving DecidableEq, Repr

/-- The on-disk behaviour of the bin directory root: `Readlink`/`Remove`/
`Symlink` on the name `go` act on the symlink, `Remove` on any other name
deletes the regular entry of that name, and `ReadDir` lists the symlink
(as an entry named `go`) and the regular entries. -/
def RealGobin : FsxOps GobinFS where
  readlink g n :=
    if n = str ("go") then
      match g.golink with
      | some t => .ok t
      | none => .error .notExist
    else .error .notExist
  readDir g :=
    .ok ((match g.golink with
      | some _ => [(str ("go"), false)]
      | none => []) ++ g.files)
  remove g n :=
    if n = str ("go") then
      match g.golink with
      | some _ => .ok { g with golink := none }
      | none => .error .notExist
    else if (n, false) ∈ g.files then
      .ok { g with files := g.files.filter (fun e => decide (e.1 ≠ n)) }
    else .error .notExist
  removeAll g n :=
    .ok { g with files := g.files.filter (fun e => decide (e.1 ≠ n)) }
  symlink g target n :=
    if n = str ("go") then
      match g.golink with
      | none => .ok { g with golink := some target }
      | some _ => .error .exist
    else .error .other
  stat _ _ := .error .notExist

/-- The on-disk behaviour of the sdk directory root: `Stat` succeeds exactly
on the paths present, and `RemoveAll p` deletes `p` and everything below it. -/
def RealSdk : FsxOps SdkFS where
  readlink _ _ := .error .notExist
  readDir _ := .ok []
  remove _ _ := .error .notExist
  removeAll s n :=
    .ok { paths :=
      s.paths.filter (fun q => decide (¬(q.1 = n ∨ hasPref (n ++ str ("/")) q.1 = true))) }
  symlink _ _ _ := .error .other
  stat s p :=
    match s.paths.find? (fun q => decide (q.1 = p)) with
    | some q => .ok ⟨q.2⟩
    | none => .error .notExist

/- ### The local snapshot and the commands -/

/-- The `local` snapshot (lines 203-207): the self-reported main version, the
currently active version, and the list of locally known versions. -/
structure Local where
  main : Str
  current : Str
  list : List Str
deriving DecidableEq, Repr

/-- Models `(*local).contains` (lines 209-216): linear membership search of
`version` in `list` under string equality. -/
def Local.contains (l : Local) (version : Str) : Bool := decide (version ∈ l.list)

/-- Models `downloaded` (lines 194-201): stat the sentinel file
`go<version>/.unpacked-success` under the sdk root and report whether the
stat succeeded, discarding the file information. -/
def downloaded (S : FsxOps σ) (version : Str) (s : σ) : Bool :=
  match S.stat s (str ("go") ++ version ++ str ("/.unpacked-success")) with
  | .ok _ => true
  | .error _ => false

/-- Models `localVersions` (lines 219-276).  `goOut` is the output of running
`go version` with the bin directory removed from the search path.  The output
is split on spaces and must have exactly 4 fields; `main` is field 2 with a
`go` prefix trimmed.  `current` comes from the `go` symlink (absent symlink
means `current = main`; other readlink errors propagate).  The list starts
with `main`, adds every non-directory entry whose name, `go` prefix trimmed,
matches `versionRE`, and is sorted by `versionLess`. -/
def localVersions (F : FsxOps γ) (goOut : Str) (g : γ) : Except Err Local :=
  match splitCh ' ' goOut with
  | [_, _, p2, _] =>
    let main := trimPref p2 (str ("go"))
    match (match F.readlink g (str ("go")) with
      | .error .notExist => .ok main
      | .ok t => .ok (trimPref (baseName t) (str ("go")))
      | .error e => .error (.fs e) : Except Err Str) with
    | .error e => .error e
    | .ok current =>
      match F.readDir g with
      | .error e => .error (.fs e)
      | .ok entries =>
        .ok { main := main, current := current,
              list := sortVersions (main ::
                (((entries.filter (fun e => !e.2)).map
                    (fun e => trimPref e.1 (str ("go")))).filter versionREmatch)) }
  | _ => .error .badFormat

/-- The external `go install golang.org/dl/go<version>@latest` and
`go<version> download` steps (lines 63 and 75), as injected collaborators
that may mutate the bin and sdk directories and may fail. -/
structure Installer (γ σ : Type) where
  install : Str → γ → σ → Except Err (γ × σ)
  download : Str → γ → σ → Except Err (γ × σ)

/-- An installer whose steps succeed without touching anything. -/
def noopInstaller : Installer γ σ where
  install _ g s := .ok (g, s)
  download _ g s := .ok (g, s)

/-- Models `use` (lines 26-90).  Returns the command's result together with
the final bin and sdk states.  The steps, in source order: require an
argument; resolve the local snapshot; resolve the `main` alias; validate
against `versionRE`; no-op when the version is current; when the version is
the main one, remove the `go` symlink, propagating any error; otherwise
install the binary when it is not in the list, download the SDK when the
sentinel is absent, remove the `go` symlink tolerating only not-found, and
create the new symlink. -/
def use (F : FsxOps γ) (S : FsxOps σ) (O : Installer γ σ) (goOut : Str)
    (args : List Str) (g : γ) (s : σ) : Except Err Unit × γ × σ :=
  match args with
  | [] => (.error .usage, g, s)
  | v0 :: _ =>
    match localVersions F goOut g with
    | .error e => (.error e, g, s)
    | .ok loc =>
      let version := if v0 = str ("main") then loc.main else v0
      if versionREmatch version = false then (.error (.malformed version), g, s)
      else if version = loc.current then (.ok (), g, s)
      else if version = loc.main then
        match F.remove g (str ("go")) with
        | .error e => (.error (.fs e), g, s)
        | .ok g1 => (.ok (), g1, s)
      else
        match (if loc.contains version then .ok (g, s) else O.install version g s :
            Except Err (γ × σ)) with
        | .error e => (.error e, g, s)
        | .ok (g1, s1) =>
          match (if downloaded S version s1 then .ok (g1, s1)
              else O.download version g1 s1 : Except Err (γ × σ)) with
          | .error e => (.error e, g1, s1)
          | .ok (g2, s2) =>
            match F.remove g2 (str ("go")) with
            | .error e =>
              if e = .notExist then
                match F.symlink g2 (str ("go") ++ version) (str ("go")) with
                | .error e2 => (.error (.fs e2), g2, s2)
                | .ok g3 => (.ok (), g3, s2)
              else (.error (.fs e), g2, s2)
            | .ok g3 =>
              match F.symlink g3 (str ("go") ++ version) (str ("go")) with
              | .error e2 => (.error (.fs e2), g3, s2)
              | .ok g4 => (.ok (), g4, s2)

/-- Models `remove` (lines 149-192).  The steps, in source order: require an
argument; resolve the local snapshot; resolve the `main` alias; validate
against `versionRE`; error when the version is not in the list; error when
the version is the main one; when the version is current, remove the `go`
symlink first, propagating any error; then remove the binary and recursively
remove the SDK directory, propagating errors. -/
def remove (F : FsxOps γ) (S : FsxOps σ) (goOut : Str)
    (args : List Str) (g : γ) (s : σ) : Except Err Unit × γ × σ :=
  match args with
  | [] => (.error .usage, g, s)
  | v0 :: _ =>
    match localVersions F goOut g with
    | .error e => (.error e, g, s)
    | .ok loc =>
      let version := if v0 = str ("main") then loc.main else v0
      if versionREmatch version = false then (.error (.malformed version), g, s)
      else if loc.contains version = false then (.error (.notInstalled version), g, s)
      else if version = loc.main then (.error (.removeMain version), g, s)
      else
        match (if version = loc.current then F.remove g (str ("go")) else .ok g :
            Except FsErr γ) with
        | .error e => (.error (.fs e), g, s)
        | .ok g1 =>
          match F.remove g1 (str ("go") ++ version) with
          | .error e => (.error (.fs e), g1, s)
          | .ok g2 =>
            match S.removeAll s (str ("go") ++ version) with
            | .error e => (.error (.fs e), g2, s)
            | .ok s2 => (.ok (), g2, s2)

/- ### Lemmas about the version grammar -/

lemma dropWhile_append_all {p : Char → Bool} {xs r : Str} (h : ∀ c ∈ xs, p c = true) :
    (xs ++ r).dropWhile p = r.dropWhile p := by
  induction xs with
  | nil => rfl
  | cons c cs ih =>
    simp only [List.cons_append, List.dropWhile_cons, h c (by simp), if_true]
    exact ih (fun c hc => h c (by simp [hc]))

lemma dropWhile_head_false {p : Char → Bool} {r : Str}
    (h : ∀ c t, r = c :: t → p c = false) : r.dropWhile p = r := by
  cases r with
  | nil => rfl
  | cons c t => simp [List.dropWhile_cons, h c t rfl]

lemma dropWhile_all_nil {p : Char → Bool} {l : Str} (h : ∀ c ∈ l, p c = true) :
    l.dropWhile p = [] := by
  have := dropWhile_append_all (r := ([] : Str)) h
  simpa using this

lemma mem_takeWhile_sat {p : Char → Bool} {l : Str} {c : Char}
    (h : c ∈ l.takeWhile p) : p c = true := by
  induction l with
  | nil => simp [List.takeWhile] at h
  | cons a t ih =>
    rw [List.takeWhile_cons] at h
    by_cases hp : p a = true
    · simp [hp] at h
      rcases h with h | h
      · exact h ▸ hp
      · exact ih h
    · simp [Bool.of_not_eq_true hp] at h

lemma hasPref_append (p t : Str) : hasPref p (p ++ t) = true := by
  induction p with
  | nil => rfl
  | cons c cs ih => simp [hasPref, ih]

lemma hasPref_ex {p l : Str} (h : hasPref p l = true) : ∃ t, l = p ++ t := by
  induction p generalizing l with
  | nil => exact ⟨l, rfl⟩
  | cons c cs ih =>
    cases l with
    | nil => simp [hasPref] at h
    | cons a t =>
      simp only [hasPref, Bool.and_eq_true, decide_eq_true_eq] at h
      obtain ⟨rfl, h2⟩ := h
      obtain ⟨t', rfl⟩ := ih h2
      exact ⟨t', rfl⟩

lemma chompNum_some {l l' : Str} (h : chompNum l = some l') :
    ∃ m, DotNumP m ∧ l = m ++ l' := by
  match l with
  | [] => simp [chompNum] at h
  | [c] => simp [chompNum] at h
  | c1 :: c2 :: rest =>
    simp only [chompNum] at h
    by_cases h1 : c1 = '.'
    · rw [if_pos h1] at h
      by_cases h2 : isNZ c2 = true
      · rw [if_pos h2] at h
        injection h with h'
        refine ⟨'.' :: c2 :: rest.takeWhile isDig,
          ⟨c2, rest.takeWhile isDig, rfl, h2, fun c hc => mem_takeWhile_sat hc⟩, ?_⟩
        subst h1
        simp [← h', List.takeWhile_append_dropWhile]
      · simp [h2] at h
    · simp [h1] at h

lemma chompNum_head_none {l : Str} (h : ∀ c t, l = c :: t → c ≠ '.') :
    chompNum l = none := by
  match l with
  | [] => rfl
  | [c] => rfl
  | c1 :: c2 :: rest => simp [chompNum, h c1 (c2 :: rest) rfl]

lemma chompNum_append {m r : Str} (hm : DotNumP m)
    (hr : ∀ c t, r = c :: t → isDig c = false) : chompNum (m ++ r) = some r := by
  obtain ⟨d, ds, rfl, hd, hds⟩ := hm
  simp only [List.cons_append, chompNum, if_pos rfl, hd, if_true]
  rw [dropWhile_append_all hds, dropWhile_head_false hr]

lemma chompTag_some {l t : Str} (h : chompTag l = some t) :
    ∃ tag, TagP tag ∧ l = tag ++ t := by
  unfold chompTag at h
  by_cases h1 : hasPref ['r', 'c'] l = true
  · rw [if_pos h1] at h
    injection h with h'
    obtain ⟨t', rfl⟩ := hasPref_ex h1
    exact ⟨['r', 'c'], .inl rfl, by simp [← h']⟩
  · rw [if_neg h1] at h
    by_cases h2 : hasPref ['b', 'e', 't', 'a'] l = true
    · rw [if_pos h2] at h
      injection h with h'
      obtain ⟨t', rfl⟩ := hasPref_ex h2
      exact ⟨['b', 'e', 't', 'a'], .inr rfl, by simp [← h']⟩
    · simp [h2] at h

lemma chompTag_append {tag : Str} (r : Str) (htag : TagP tag) :
    chompTag (tag ++ r) = some r := by
  rcases htag with rfl | rfl
  · have hp : hasPref ['r', 'c'] ('r' :: 'c' :: r) = true := by simp [hasPref]
    simp [chompTag, hp]
  · have hb : hasPref ['r', 'c'] ('b' :: 'e' :: 't' :: 'a' :: r) = false := by
      simp [hasPref]
    have hp : hasPref ['b', 'e', 't', 'a'] ('b' :: 'e' :: 't' :: 'a' :: r) = true := by
      simp [hasPref]
    simp [chompTag, hb, hp]

lemma chompSuffix_some {l l' : Str} (h : chompSuffix l = some l') :
    ∃ x, SuffixP amendNumP x ∧ l = x ++ l' := by
  unfold chompSuffix at h
  cases htag : chompTag l with
  | none => rw [htag] at h; exact absurd h (by simp)
  | some t =>
    rw [htag] at h
    cases t with
    | nil => simp at h
    | cons c rest =>
      dsimp only at h
      by_cases hnz : isNZ c = true
      · rw [if_pos hnz] at h
        injection h with h'
        obtain ⟨tag, htagp, rfl⟩ := chompTag_some htag
        refine ⟨tag ++ (c :: rest.takeWhile isNZ),
          ⟨tag, c :: rest.takeWhile isNZ, rfl, htagp,
            List.cons_ne_nil _ _, ?_⟩, ?_⟩
        · intro a ha
          rcases List.mem_cons.mp ha with rfl | ha
          · exact hnz
          · exact mem_takeWhile_sat ha
        · simp [← h', List.append_assoc, List.takeWhile_append_dropWhile]
      · simp [hnz] at h

lemma chompSuffix_closed {x : Str} (hx : SuffixP amendNumP x) :
    chompSuffix x = some [] := by
  obtain ⟨tag, n, rfl, htag, hne, hall⟩ := hx
  unfold chompSuffix
  rw [chompTag_append n htag]
  cases n with
  | nil => exact absurd rfl hne
  | cons c rest =>
    dsimp only
    rw [if_pos (hall c (by simp))]
    rw [dropWhile_all_nil (fun a ha => hall a (by simp [ha]))]

lemma chompSuffix_head_none {l : Str}
    (h : ∀ c t, l = c :: t → c ≠ 'r' ∧ c ≠ 'b') : chompSuffix l = none := by
  have htag : chompTag l = none := by
    cases l with
    | nil => rfl
    | cons c t =>
      obtain ⟨h1, h2⟩ := h c t rfl
      simp [chompTag, hasPref, Ne.symm h1, Ne.symm h2]
  simp [chompSuffix, htag]

/-- The head of a well-formed pre-release suffix (or of the empty rest) is
not a digit and not a dot. -/
lemma suffix_head {num : Str → Prop} {x : Str} (hx : x = [] ∨ SuffixP num x) :
    ∀ c t, x = c :: t → isDig c = false ∧ c ≠ '.' ∧ (c = 'r' ∨ c = 'b') := by
  intro c t hct
  rcases hx with rfl | ⟨tag, n, rfl, htag, _⟩
  · exact absurd hct (by simp)
  · rcases htag with rfl | rfl
    · simp only [List.cons_append] at hct
      injection hct with h1 _
      subst h1
      exact ⟨by decide, by decide, .inl rfl⟩
    · simp only [List.cons_append] at hct
      injection hct with h1 _
      subst h1
      exact ⟨by decide, by decide, .inr rfl⟩

lemma opt_none {f : Str → Option Str} {l : Str} (h : f l = none) : opt f l = l := by
  simp [opt, h]

lemma opt_some {f : Str → Option Str} {l l' : Str} (h : f l = some l') : opt f l = l' := by
  simp [opt, h]

lemma versionREmatch_sound {s : Str} (h : versionREmatch s = true) :
    GrammarP amendNumP s := by
  cases s with
  | nil => simp [versionREmatch] at h
  | cons c rest =>
    simp only [versionREmatch, Bool.and_eq_true, decide_eq_true_eq,
      List.isEmpty_iff] at h
    obtain ⟨rfl, hdone⟩ := h
    obtain ⟨m, hm, hrest⟩ : ∃ m, (m = [] ∨ DotNumP m) ∧ rest = m ++ opt chompNum rest := by
      cases h1 : chompNum rest with
      | none => exact ⟨[], .inl rfl, by rw [opt_none h1]; rfl⟩
      | some a =>
        obtain ⟨m, hm, he⟩ := chompNum_some h1
        exact ⟨m, .inr hm, by rw [opt_some h1]; exact he⟩
    obtain ⟨p, hp, ha⟩ : ∃ p, (p = [] ∨ DotNumP p) ∧
        opt chompNum rest = p ++ opt chompNum (opt chompNum rest) := by
      cases h1 : chompNum (opt chompNum rest) with
      | none => exact ⟨[], .inl rfl, by rw [opt_none h1]; rfl⟩
      | some a =>
        obtain ⟨p, hp, he⟩ := chompNum_some h1
        exact ⟨p, .inr hp, by rw [opt_some h1]; exact he⟩
    obtain ⟨x, hx, hb⟩ : ∃ x, (x = [] ∨ SuffixP amendNumP x) ∧
        opt chompNum (opt chompNum rest) =
          x ++ opt chompSuffix (opt chompNum (opt chompNum rest)) := by
      cases h1 : chompSuffix (opt chompNum (opt chompNum rest)) with
      | none => exact ⟨[], .inl rfl, by rw [opt_none h1]; rfl⟩
      | some a =>
        obtain ⟨x, hx, he⟩ := chompSuffix_some h1
        exact ⟨x, .inr hx, by rw [opt_some h1]; exact he⟩
    refine ⟨m, p, x, ?_, hm, hp, hx⟩
    rw [hdone, List.append_nil] at hb
    rw [hrest, ha, hb]

lemma versionREmatch_complete {s : Str} (h : GrammarP amendNumP s) :
    versionREmatch s = true := by
  obtain ⟨m, p, x, rfl, hm, hp, hx⟩ := h
  simp only [versionREmatch, Bool.and_eq_true, decide_eq_true_eq,
    List.isEmpty_iff]
  refine ⟨trivial, ?_⟩
  have hxdig : ∀ c t, x = c :: t → isDig c = false :=
    fun c t hct => (suffix_head hx c t hct).1
  have hxdot : ∀ c t, x = c :: t → c ≠ '.' :=
    fun c t hct => (suffix_head hx c t hct).2.1
  have hnx : chompNum x = none := chompNum_head_none hxdot
  have hsuf : opt chompSuffix x = [] := by
    rcases hx with rfl | hx
    · rfl
    · rw [opt_some (chompSuffix_closed hx)]
  have hpx : ∀ c t, p ++ x = c :: t → isDig c = false := by
    intro c t hct
    rcases hp with rfl | ⟨d, ds, rfl, _, _⟩
    · exact hxdig c t (by simpa using hct)
    · simp only [List.cons_append] at hct
      injection hct with h1 _
      subst h1
      decide
  rcases hm with rfl | hm
  · rcases hp with rfl | hp
    · simp only [List.nil_append]
      rw [opt_none hnx, opt_none hnx]
      exact hsuf
    · simp only [List.nil_append]
      rw [opt_some (chompNum_append hp hxdig), opt_none hnx]
      exact hsuf
  · rcases hp with rfl | hp
    · simp only [List.nil_append]
      rw [opt_some (chompNum_append hm hxdig), opt_none hnx]
      exact hsuf
    · rw [opt_some (chompNum_append hm hpx), opt_some (chompNum_append hp hxdig)]
      exact hsuf

/-- Claim C1, counterexample: the string `1.22rc10` matches the claimed
grammar (`N` a positive integer with no leading zero), yet `versionRE`
rejects it — the regex accepts `[1-9]+` after the tag, so the digit `0` may
not appear anywhere in N. -/
theorem c1_claim_counterexample :
    GrammarP claimNumP (str ("1.22rc10")) ∧ versionREmatch (str ("1.22rc10")) = false := by
  constructor
  · exact ⟨['.', '2', '2'], [], ['r', 'c', '1', '0'], by decide,
      .inr ⟨'2', ['2'], rfl, by decide, by decide⟩, .inl rfl,
      .inr ⟨['r', 'c'], ['1', '0'], rfl, .inl rfl, ⟨'1', ['0'], rfl, by decide, by decide⟩⟩⟩
  · decide

/-- Claim C1, amended: version validation (`versionRE`, used by `use` and
`remove`) accepts a string exactly when it matches the grammar
`1[.MINOR][.PATCH][(rc|beta)N]` with MINOR, PATCH positive integers with no
leading zero and N a nonempty run of digits `1`-`9` (the digit `0` never
occurs in N); every other string (empty, leading zero, trailing garbage,
`1.` alone) is rejected. -/
theorem c1_amended_grammar_equiv (s : Str) :
    versionREmatch s = true ↔ GrammarP amendNumP s :=
  ⟨versionREmatch_sound, versionREmatch_complete⟩

/- ### Lemmas about the version ordering and sorting -/

lemma keyLt_asymm : ∀ a b : List Nat, keyLt a b = true → keyLt b a = false := by
  intro a
  induction a with
  | nil => intro b h; cases b <;> simp [keyLt] at h ⊢
  | cons x as ih =>
    intro b h
    cases b with
    | nil => simp [keyLt] at h
    | cons y bs =>
      simp only [keyLt] at h ⊢
      by_cases h1 : x < y
      · have : ¬ y < x := by omega
        simp [this, show ¬ y = x by omega, show x ≠ y by omega]
        omega
      · rw [if_neg h1] at h
        by_cases h2 : y < x
        · simp [h2] at h
        · rw [if_neg h2] at h
          simp [h1, h2, ih bs h]

lemma keyLt_or : ∀ a b c : List Nat, keyLt a c = true →
    keyLt a b = true ∨ keyLt b c = true := by
  intro a
  induction a with
  | nil =>
    intro b c h
    cases c with
    | nil => simp [keyLt] at h
    | cons z cs =>
      cases b with
      | nil => right; simp [keyLt]
      | cons y bs => left; simp [keyLt]
  | cons x as ih =>
    intro b c h
    cases c with
    | nil => simp [keyLt] at h
    | cons z cs =>
      cases b with
      | nil => right; simp [keyLt]
      | cons y bs =>
        simp only [keyLt] at h ⊢
        by_cases hxz : x < z
        · by_cases hxy : x < y
          · left; simp [hxy]
          · right
            have : y < z := by omega
            simp [this]
        · rw [if_neg hxz] at h
          by_cases hzx : z < x
          · simp [hzx] at h
          · rw [if_neg hzx] at h
            have hxez : x = z := by omega
            by_cases hxy : x < y
            · left; simp [hxy]
            · by_cases hyx : y < x
              · right; simp [show y < z by omega]
              · have hxey : x = y := by omega
                rcases ih bs cs h with h' | h'
                · left; simp [hxy, hyx, h']
                · right
                  simp [show ¬ y < z by omega, show ¬ z < y by omega, h']

lemma verLe_total (a b : Str) : verLe a b = true ∨ verLe b a = true := by
  unfold verLe
  by_cases h : versionLess b a = true
  · right
    unfold versionLess at h ⊢
    simp [keyLt_asymm _ _ h]
  · left
    simp [Bool.of_not_eq_true h]

lemma verLe_trans {a b c : Str} (h1 : verLe a b = true) (h2 : verLe b c = true) :
    verLe a c = true := by
  unfold verLe versionLess at h1 h2 ⊢
  simp only [Bool.not_eq_true'] at h1 h2 ⊢
  by_cases h : keyLt (versionKey c) (versionKey a) = true
  · rcases keyLt_or _ (versionKey b) _ h with h' | h'
    · rw [h'] at h2; cases h2
    · rw [h'] at h1; cases h1
  · exact Bool.of_not_eq_true h

lemma mem_insertV {a x : Str} {l : List Str} :
    a ∈ insertV x l ↔ a = x ∨ a ∈ l := by
  induction l with
  | nil => simp [insertV]
  | cons y ys ih =>
    simp only [insertV]
    by_cases h : verLe x y = true
    · simp [h]
    · rw [if_neg h]
      simp only [List.mem_cons, ih]
      tauto

lemma mem_sortVersions {a : Str} {l : List Str} :
    a ∈ sortVersions l ↔ a ∈ l := by
  induction l with
  | nil => simp [sortVersions]
  | cons x xs ih => simp [sortVersions, mem_insertV, ih]

lemma sorted_insertV {x : Str} {l : List Str}
    (h : l.Pairwise (fun a b => verLe a b = true)) :
    (insertV x l).Pairwise (fun a b => verLe a b = true) := by
  induction l with
  | nil => simp [insertV]
  | cons y ys ih =>
    simp only [insertV]
    by_cases hxy : verLe x y = true
    · rw [if_pos hxy]
      refine List.pairwise_cons.mpr ⟨?_, h⟩
      intro b hb
      rcases List.mem_cons.mp hb with rfl | hb
      · exact hxy
      · exact verLe_trans hxy ((List.pairwise_cons.mp h).1 b hb)
    · rw [if_neg hxy]
      obtain ⟨hy, hys⟩ := List.pairwise_cons.mp h
      refine List.pairwise_cons.mpr ⟨?_, ih hys⟩
      intro b hb
      rcases mem_insertV.mp hb with rfl | hb
      · rcases verLe_total b y with h' | h'
        · exact absurd h' hxy
        · exact h'
      · exact hy b hb

lemma sorted_sortVersions (l : List Str) :
    (sortVersions l).Pairwise (fun a b => verLe a b = true) := by
  induction l with
  | nil => simp [sortVersions]
  | cons x xs ih => exact sorted_insertV ih

/- ### Evaluating `localVersions` on the concrete bin directory -/

/-- The `current` field `localVersions` computes on a concrete bin state:
the main version when the `go` symlink is absent, otherwise the base name of
the symlink target with the `go` prefix trimmed (lines 241-249). -/
def realCurrent (g : GobinFS) (main : Str) : Str :=
  match g.golink with
  | none => main
  | some t => trimPref (baseName t) (str ("go"))

/-- The versions contributed to the list by the regular entries of the bin
directory (lines 256-265): skip directories, trim the `go` prefix, keep the
names matching `versionRE`. -/
def filesVersions (fs : List (Str × Bool)) : List Str :=
  ((fs.filter (fun e => !e.2)).map (fun e => trimPref e.1 (str ("go")))).filter versionREmatch

lemma localVersions_real (F : FsxOps GobinFS) (hrl : F.readlink = RealGobin.readlink)
    (hrd : F.readDir = RealGobin.readDir) {goOut w1 w2 pw w4 : Str} (g : GobinFS)
    (h4 : splitCh ' ' goOut = [w1, w2, pw, w4]) :
    localVersions F goOut g = .ok
      { main := trimPref pw (str ("go")),
        current := realCurrent g (trimPref pw (str ("go"))),
        list := sortVersions (trimPref pw (str ("go")) :: filesVersions g.files) } := by
  unfold localVersions
  rw [h4, hrl, hrd]
  have hgo : trimPref (str ("go")) (str ("go")) = [] := by decide
  have hre : versionREmatch ([] : Str) = false := rfl
  cases hg : g.golink with
  | none => simp [RealGobin, realCurrent, hg, filesVersions]
  | some t => simp [RealGobin, realCurrent, hg, filesVersions, hgo, hre]

lemma contains_iff {l : Local} {v : Str} : l.contains v = true ↔ v ∈ l.list := by
  simp [Local.contains]


/- ### Characters of a valid version -/

lemma isNZ_isDig {c : Char} (h : isNZ c = true) : isDig c = true := by
  simp only [isNZ, decide_eq_true_eq] at h
  simp only [isDig, decide_eq_true_eq]
  have e0 : '0'.toNat = 48 := rfl
  have e1 : '1'.toNat = 49 := rfl
  have e9 : '9'.toNat = 57 := rfl
  rw [e1, e9] at h
  rw [e0, e9]
  omega

lemma versionREmatch_chars {v : Str} (h : versionREmatch v = true) :
    ∀ c ∈ v, isDig c = true ∨ c ∈ (['.', 'r', 'c', 'b', 'e', 't', 'a'] : Str) := by
  obtain ⟨m, p, x, rfl, hm, hp, hx⟩ := versionREmatch_sound h
  intro c hc
  rcases List.mem_cons.mp hc with rfl | hc
  · left; decide
  have hdot : ∀ q : Str, (q = [] ∨ DotNumP q) → c ∈ q →
      isDig c = true ∨ c ∈ (['.', 'r', 'c', 'b', 'e', 't', 'a'] : Str) := by
    intro q hq hcq
    rcases hq with rfl | ⟨d, ds, rfl, hd, hds⟩
    · simp at hcq
    · rcases List.mem_cons.mp hcq with rfl | hcq
      · right; simp
      · rcases List.mem_cons.mp hcq with rfl | hcq
        · left; exact isNZ_isDig hd
        · left; exact hds c hcq
  rcases List.mem_append.mp hc with hcm | hc2
  · exact hdot m hm hcm
  rcases List.mem_append.mp hc2 with hcp | hcx
  · exact hdot p hp hcp
  rcases hx with rfl | ⟨tag, n, rfl, htag, hne, hall⟩
  · simp at hcx
  rcases List.mem_append.mp hcx with hct | hcn
  · right
    rcases htag with rfl | rfl
    · simp only [List.mem_cons] at hct ⊢
      tauto
    · simp only [List.mem_cons] at hct ⊢
      tauto
  · left; exact isNZ_isDig (hall c hcn)

lemma versionREmatch_no_slash {v : Str} (h : versionREmatch v = true) :
    ∀ c ∈ v, c ≠ '/' := by
  intro c hc he
  subst he
  rcases versionREmatch_chars h '/' hc with hd | hmem
  · exact absurd hd (by decide)
  · revert hmem; decide

lemma splitCh_no_sep {sep : Char} {l : Str} (h : ∀ c ∈ l, c ≠ sep) :
    splitCh sep l = [l] := by
  induction l with
  | nil => rfl
  | cons c rest ih =>
    have hih := ih (fun a ha => h a (by simp [ha]))
    simp only [splitCh, hih]
    rw [if_neg (h c (by simp))]

lemma baseName_of_no_slash {l : Str} (h : ∀ c ∈ l, c ≠ '/') : baseName l = l := by
  unfold baseName
  rw [splitCh_no_sep h]
  rfl

lemma trimPref_go (v : Str) : trimPref (str ("go") ++ v) (str ("go")) = v := by
  unfold trimPref
  rw [if_pos (hasPref_append (str ("go")) v)]
  exact List.drop_left _ _

lemma baseName_go {v : Str} (h : versionREmatch v = true) :
    baseName (str ("go") ++ v) = str ("go") ++ v := by
  apply baseName_of_no_slash
  intro c hc
  rcases List.mem_append.mp hc with hcg | hcv
  · have hgo : c = 'g' ∨ c = 'o' := by simpa [str] using hcg
    rcases hgo with rfl | rfl <;> decide
  · exact versionREmatch_no_slash h c hcv

lemma versionREmatch_ne_main {v : Str} (h : versionREmatch v = true) :
    v ≠ str ("main") := by
  intro he
  subst he
  exact absurd h (by decide)

lemma realCurrent_golink {g : GobinFS} {v m : Str}
    (hg : g.golink = some (str ("go") ++ v)) (hv : versionREmatch v = true) :
    realCurrent g m = v := by
  unfold realCurrent
  rw [hg]
  dsimp only
  rw [baseName_go hv, trimPref_go]

/-- Claim C2, counterexample: in the claimed scenario (bin directory contains
`go1.20` and `go1.21`, the toolchain self-reports `go1.21`, no `go` symlink),
the code produces the list `["1.20","1.21","1.21"]` — the main version is
prepended unconditionally (line 256) and nothing deduplicates it against the
installed `go1.21` binary — not the claimed `["1.20","1.21"]`, and the list
has a duplicate. -/
theorem c2_claim_counterexample :
    localVersions RealGobin (str ("go version go1.21 linux/amd64"))
        ⟨[(str ("go1.20"), false), (str ("go1.21"), false)], none⟩
      = .ok ⟨str ("1.21"), str ("1.21"), [str ("1.20"), str ("1.21"), str ("1.21")]⟩ ∧
    ([str ("1.20"), str ("1.21"), str ("1.21")] : List Str) ≠ [str ("1.20"), str ("1.21")] ∧
    ¬ ([str ("1.20"), str ("1.21"), str ("1.21")] : List Str).Nodup :=
  ⟨rfl, by decide, by decide⟩

/-- Claim C2, amended: for every bin-directory state and self-reported main
version, the list of the snapshot returned by `localVersions` is sorted
ascending by the version order, always contains main, and contains the
version of every installed release binary found in the bin directory; the
list is however not deduplicated — when the main version's own binary is
present in the bin directory, main occurs twice (see the counterexample,
where the scenario of the claim yields `["1.20","1.21","1.21"]`). -/
theorem c2_amended_localVersions_list (goOut w1 w2 pw w4 : Str) (g : GobinFS)
    (h4 : splitCh ' ' goOut = [w1, w2, pw, w4]) :
    ∃ loc, localVersions RealGobin goOut g = .ok loc ∧
      loc.main ∈ loc.list ∧
      loc.list.Pairwise (fun a b => verLe a b = true) ∧
      (∀ nm, (nm, false) ∈ g.files → versionREmatch (trimPref nm (str ("go"))) = true →
        trimPref nm (str ("go")) ∈ loc.list) := by
  refine ⟨_, localVersions_real RealGobin rfl rfl g h4, ?_, ?_, ?_⟩
  · exact mem_sortVersions.mpr (by simp)
  · exact sorted_sortVersions _
  · intro nm hmem hre
    apply mem_sortVersions.mpr
    apply List.mem_cons.mpr
    right
    unfold filesVersions
    exact List.mem_filter.mpr
      ⟨List.mem_map.mpr ⟨(nm, false), List.mem_filter.mpr ⟨hmem, rfl⟩, rfl⟩, hre⟩

/-- Witness for the amended claim C2 at the scenario state. -/
theorem c2_amended_localVersions_list_witness :
    ∃ loc, localVersions RealGobin (str ("go version go1.21 linux/amd64"))
        ⟨[(str ("go1.20"), false), (str ("go1.21"), false)], none⟩ = .ok loc ∧
      loc.main ∈ loc.list ∧
      loc.list.Pairwise (fun a b => verLe a b = true) ∧
      (∀ nm, (nm, false) ∈ [(str ("go1.20"), false), (str ("go1.21"), false)] →
        versionREmatch (trimPref nm (str ("go"))) = true →
        trimPref nm (str ("go")) ∈ loc.list) :=
  c2_amended_localVersions_list (str ("go version go1.21 linux/amd64"))
    (str ("go")) (str ("version")) (str ("go1.21")) (str ("linux/amd64"))
    ⟨[(str ("go1.20"), false), (str ("go1.21"), false)], none⟩ (by decide)

/-- Claim C3, counterexample: `localVersions` never checks the symlink target
against the directory listing, so with a dangling symlink `go -> go1.19`
(no `go1.19` binary installed) the returned snapshot has
`current = "1.19"`, which is neither `main` nor a member of `list`. -/
theorem c3_claim_counterexample :
    localVersions RealGobin (str ("go version go1.21 linux/amd64"))
        ⟨[(str ("go1.20"), false)], some (str ("go1.19"))⟩
      = .ok ⟨str ("1.21"), str ("1.19"), [str ("1.20"), str ("1.21")]⟩ ∧
    str ("1.19") ≠ str ("1.21") ∧
    str ("1.19") ∉ ([str ("1.20"), str ("1.21")] : List Str) :=
  ⟨rfl, by decide, by decide⟩

/-- Claim C3, amended: every snapshot successfully returned by
`localVersions` has `main` as a member of `list`, and when the `go` symlink
is absent, `current` equals `main`; when the symlink is present, `current`
is taken from the symlink target's base name with the `go` prefix stripped,
without any check that it is a member of `list` or that its binary exists
(see the counterexample with a dangling symlink). -/
theorem c3_amended_invariant (goOut w1 w2 pw w4 : Str) (g : GobinFS)
    (h4 : splitCh ' ' goOut = [w1, w2, pw, w4]) :
    ∃ loc, localVersions RealGobin goOut g = .ok loc ∧
      loc.main ∈ loc.list ∧ (g.golink = none → loc.current = loc.main) := by
  refine ⟨_, localVersions_real RealGobin rfl rfl g h4, mem_sortVersions.mpr (by simp), ?_⟩
  intro hnone
  simp only [realCurrent, hnone]

/-- Witness for the amended claim C3 at a concrete state with no symlink. -/
theorem c3_amended_invariant_witness :
    ∃ loc, localVersions RealGobin (str ("go version go1.21 linux/amd64"))
        ⟨[(str ("go1.20"), false)], none⟩ = .ok loc ∧
      loc.main ∈ loc.list ∧
      ((⟨[(str ("go1.20"), false)], none⟩ : GobinFS).golink = none →
        loc.current = loc.main) :=
  c3_amended_invariant (str ("go version go1.21 linux/amd64"))
    (str ("go")) (str ("version")) (str ("go1.21")) (str ("linux/amd64"))
    ⟨[(str ("go1.20"), false)], none⟩ (by decide)

/-- Claim C9 (confirmed): the SDK presence check `downloaded` returns true
precisely when stat of `go<version>/.unpacked-success` under the SDK root
succeeds, whatever the file information is (content and size are irrelevant
and errors are never propagated — the function returns plain `Bool`); on the
concrete sdk state this means: true exactly when the sentinel path is
present, with any size. -/
theorem c9_downloaded_probe {σ : Type} (S : FsxOps σ) (s : σ) (v : Str) (sd : SdkFS) :
    (downloaded S v s = true ↔
      ∃ info, S.stat s (str ("go") ++ v ++ str ("/.unpacked-success")) = .ok info) ∧
    (downloaded RealSdk v sd = true ↔
      ∃ sz, (str ("go") ++ v ++ str ("/.unpacked-success"), sz) ∈ sd.paths) := by
  constructor
  · unfold downloaded
    cases h : S.stat s (str ("go") ++ v ++ str ("/.unpacked-success")) with
    | ok info => simp [h]
    | error e => simp [h]
  · unfold downloaded
    show (match RealSdk.stat sd (str ("go") ++ v ++ str ("/.unpacked-success")) with
      | .ok _ => true | .error _ => false) = true ↔ _
    simp only [RealSdk]
    cases h : sd.paths.find?
        (fun q => decide (q.1 = str ("go") ++ v ++ str ("/.unpacked-success"))) with
    | none =>
      simp only [h]
      constructor
      · intro hf; cases hf
      · rintro ⟨sz, hmem⟩
        have hnone := List.find?_eq_none.mp h _ hmem
        simp at hnone
    | some q =>
      simp only [h]
      constructor
      · intro _
        have hq : q.1 = str ("go") ++ v ++ str ("/.unpacked-success") := by
          have := List.find?_some h
          simpa using this
        refine ⟨q.2, ?_⟩
        rw [← hq]
        exact List.mem_of_find?_eq_some h
      · intro _; trivial

/-- Claim C5, counterexample: `remove` validates the version against
`versionRE` before checking for the main version (lines 164-174), and the
self-reported main version need not pass the grammar.  With a toolchain
self-reporting `go1.21.0` (the actual format of Go point releases — the
patch component `0` has a leading-zero shape the regex rejects),
`remove main` fails with a malformed-version error, not with the
state-conflict error `unable to remove`; no mutation occurs either way. -/
theorem c5_claim_counterexample :
    remove RealGobin RealSdk (str ("go version go1.21.0 linux/amd64"))
        [str ("main")] ⟨[(str ("go1.20"), false)], none⟩ ⟨[]⟩
      = (.error (.malformed (str ("1.21.0"))), ⟨[(str ("go1.20"), false)], none⟩, ⟨[]⟩) ∧
    Err.malformed (str ("1.21.0")) ≠ Err.removeMain (str ("1.21.0")) :=
  ⟨rfl, by decide⟩

/-- Claim C5, amended: whenever the self-reported main version passes the
version grammar, `remove` invoked on the main version (directly or via the
`main` alias) fails with the state-conflict error `unable to remove`, and no
filesystem mutation occurs; when main itself fails the grammar, `remove`
fails earlier with a malformed-version error (see the counterexample), again
without mutation. -/
theorem c5_amended_remove_main_conflict (goOut w1 w2 pw w4 v0 : Str)
    (g : GobinFS) (s : SdkFS)
    (h4 : splitCh ' ' goOut = [w1, w2, pw, w4])
    (hm : versionREmatch (trimPref pw (str ("go"))) = true)
    (hres : (if v0 = str ("main") then trimPref pw (str ("go")) else v0)
      = trimPref pw (str ("go"))) :
    remove RealGobin RealSdk goOut [v0] g s =
      (.error (.removeMain (trimPref pw (str ("go")))), g, s) := by
  unfold remove
  rw [localVersions_real RealGobin rfl rfl g h4]
  dsimp only
  rw [hres, hm]
  have hmem : trimPref pw (str ("go"))
      ∈ sortVersions (trimPref pw (str ("go")) :: filesVersions g.files) :=
    mem_sortVersions.mpr (by simp)
  simp [Local.contains, hmem]

/-- Witness for the amended claim C5: removing `main` with main `1.21`. -/
theorem c5_amended_remove_main_conflict_witness :
    remove RealGobin RealSdk (str ("go version go1.21 linux/amd64"))
        [str ("main")] ⟨[(str ("go1.20"), false)], none⟩ ⟨[]⟩
      = (.error (.removeMain (trimPref (str ("go1.21")) (str ("go")))),
         ⟨[(str ("go1.20"), false)], none⟩, ⟨[]⟩) :=
  c5_amended_remove_main_conflict (str ("go version go1.21 linux/amd64"))
    (str ("go")) (str ("version")) (str ("go1.21")) (str ("linux/amd64"))
    (str ("main")) ⟨[(str ("go1.20"), false)], none⟩ ⟨[]⟩
    (by decide) (by decide) (by decide)

/-- Claim C8 (confirmed): when the argument, after resolving the `main`
alias, fails the version grammar, both `use` and `remove` return a
malformed-version error with the bin and sdk states returned unchanged — no
symlink is created or removed, no file deleted, no install or download step
invoked. -/
theorem c8_malformed_no_mutation (goOut w1 w2 pw w4 v0 : Str) (rest : List Str)
    (g : GobinFS) (s : SdkFS) (O : Installer GobinFS SdkFS)
    (h4 : splitCh ' ' goOut = [w1, w2, pw, w4])
    (hbad : versionREmatch
      (if v0 = str ("main") then trimPref pw (str ("go")) else v0) = false) :
    use RealGobin RealSdk O goOut (v0 :: rest) g s =
      (.error (.malformed (if v0 = str ("main") then trimPref pw (str ("go")) else v0)),
       g, s) ∧
    remove RealGobin RealSdk goOut (v0 :: rest) g s =
      (.error (.malformed (if v0 = str ("main") then trimPref pw (str ("go")) else v0)),
       g, s) := by
  constructor
  · unfold use
    rw [localVersions_real RealGobin rfl rfl g h4]
    dsimp only
    rw [hbad]
    simp
  · unfold remove
    rw [localVersions_real RealGobin rfl rfl g h4]
    dsimp only
    rw [hbad]
    simp

/-- Witness for claim C8: the argument `1.0` (leading zero) is rejected by
both commands without mutation. -/
theorem c8_malformed_no_mutation_witness :
    use RealGobin RealSdk noopInstaller (str ("go version go1.21 linux/amd64"))
        [str ("1.0")] ⟨[(str ("go1.20"), false)], none⟩ ⟨[]⟩ =
      (.error (.malformed (if str ("1.0") = str ("main")
        then trimPref (str ("go1.21")) (str ("go")) else str ("1.0"))),
       ⟨[(str ("go1.20"), false)], none⟩, ⟨[]⟩) ∧
    remove RealGobin RealSdk (str ("go version go1.21 linux/amd64"))
        [str ("1.0")] ⟨[(str ("go1.20"), false)], none⟩ ⟨[]⟩ =
      (.error (.malformed (if str ("1.0") = str ("main")
        then trimPref (str ("go1.21")) (str ("go")) else str ("1.0"))),
       ⟨[(str ("go1.20"), false)], none⟩, ⟨[]⟩) :=
  c8_malformed_no_mutation (str ("go version go1.21 linux/amd64"))
    (str ("go")) (str ("version")) (str ("go1.21")) (str ("linux/amd64"))
    (str ("1.0")) [] ⟨[(str ("go1.20"), false)], none⟩ ⟨[]⟩ noopInstaller
    (by decide) (by decide)

/- ### Claim C4: switching to the main version -/

/-- A bin-directory implementation whose `Remove` always reports not-found;
used to observe how `use` treats a not-found removal error in its
switch-to-main branch. -/
def badRemoveGobin : FsxOps GobinFS :=
  { RealGobin with remove := fun _ _ => .error .notExist }

/-- Claim C4, counterexample: in the switch-to-main branch of `use`
(lines 49-56) the result of removing the `go` symlink is propagated
verbatim — `errors.Is(err, fs.ErrNotExist)` is checked only in the other
branch (line 81).  Against a bin directory whose `Remove` reports not-found,
`use 1.21` (main `1.21`, current `1.20`) returns the not-found error instead
of the claimed success. -/
theorem c4_claim_counterexample :
    use badRemoveGobin RealSdk noopInstaller (str ("go version go1.21 linux/amd64"))
        [str ("1.21")] ⟨[(str ("go1.20"), false)], some (str ("go1.20"))⟩ ⟨[]⟩
      = (.error (.fs .notExist),
         ⟨[(str ("go1.20"), false)], some (str ("go1.20"))⟩, ⟨[]⟩) ∧
    (Except.error (Err.fs .notExist) : Except Err Unit) ≠ .ok () :=
  ⟨rfl, fun h => Except.noConfusion h⟩

/-- Claim C4, amended: when the requested version (after resolving the
`main` alias) equals the snapshot's main version and differs from current,
`use` removes the `go` symlink and propagates any error of that removal
verbatim (a not-found error is not tolerated in this branch — see the
counterexample).  On the concrete bin directory the symlink exists whenever
current differs from main, so the removal succeeds, this removal alone
reactivates main, and `use` returns success. -/
theorem c4_amended_use_main_switch (goOut w1 w2 pw w4 v0 t : Str)
    (g : GobinFS) (s : SdkFS) (O : Installer GobinFS SdkFS)
    (h4 : splitCh ' ' goOut = [w1, w2, pw, w4])
    (hm : versionREmatch (trimPref pw (str ("go"))) = true)
    (hres : (if v0 = str ("main") then trimPref pw (str ("go")) else v0)
      = trimPref pw (str ("go")))
    (hlink : g.golink = some t)
    (hcur : trimPref (baseName t) (str ("go")) ≠ trimPref pw (str ("go"))) :
    use RealGobin RealSdk O goOut [v0] g s = (.ok (), { g with golink := none }, s) ∧
    ∃ loc, localVersions RealGobin goOut { g with golink := none } = .ok loc ∧
      loc.current = loc.main := by
  constructor
  · unfold use
    rw [localVersions_real RealGobin rfl rfl g h4]
    dsimp only
    rw [hres, hm]
    have hrc : realCurrent g (trimPref pw (str ("go")))
        = trimPref (baseName t) (str ("go")) := by
      simp [realCurrent, hlink]
    rw [hrc]
    rw [if_neg (Ne.symm hcur)]
    simp [RealGobin, hlink]
  · refine ⟨_, localVersions_real RealGobin rfl rfl _ h4, ?_⟩
    simp [realCurrent]

/-- Witness for the amended claim C4 at a concrete state. -/
theorem c4_amended_use_main_switch_witness :
    use RealGobin RealSdk noopInstaller (str ("go version go1.21 linux/amd64"))
        [str ("main")] ⟨[(str ("go1.20"), false)], some (str ("go1.20"))⟩ ⟨[]⟩
      = (.ok (), { files := [(str ("go1.20"), false)], golink := none }, ⟨[]⟩) ∧
    ∃ loc, localVersions RealGobin (str ("go version go1.21 linux/amd64"))
        { files := [(str ("go1.20"), false)], golink := none } = .ok loc ∧
      loc.current = loc.main :=
  c4_amended_use_main_switch (str ("go version go1.21 linux/amd64"))
    (str ("go")) (str ("version")) (str ("go1.21")) (str ("linux/amd64"))
    (str ("main")) (str ("go1.20"))
    ⟨[(str ("go1.20"), false)], some (str ("go1.20"))⟩ ⟨[]⟩ noopInstaller
    (by decide) (by decide) (by decide) rfl (by decide)

/- ### Installed binaries and SDK sentinels -/

lemma contains_of_binary {g : GobinFS} {v : Str} (m : Str)
    (hv : versionREmatch v = true) (hbin : (str ("go") ++ v, false) ∈ g.files) :
    v ∈ sortVersions (m :: filesVersions g.files) := by
  apply mem_sortVersions.mpr
  apply List.mem_cons.mpr
  right
  unfold filesVersions
  refine List.mem_filter.mpr ⟨?_, hv⟩
  exact List.mem_map.mpr
    ⟨(str ("go") ++ v, false), List.mem_filter.mpr ⟨hbin, rfl⟩, trimPref_go v⟩

lemma downloaded_real_true {s : SdkFS} {v : Str} {sz : Nat}
    (h : (str ("go") ++ v ++ str ("/.unpacked-success"), sz) ∈ s.paths) :
    downloaded RealSdk v s = true := by
  unfold downloaded
  simp only [RealSdk]
  cases hf : s.paths.find?
      (fun q => decide (q.1 = str ("go") ++ v ++ str ("/.unpacked-success"))) with
  | none =>
    exfalso
    have := List.find?_eq_none.mp hf _ h
    simp at this
  | some q => simp [hf]

lemma go_append_ne_go {v : Str} (hv : versionREmatch v = true) :
    str ("go") ++ v ≠ str ("go") := by
  intro h
  have hlen := congrArg List.length h
  simp at hlen
  subst hlen
  exact absurd hv (by decide)

/-- Claim C7 (confirmed): for an installed version with its SDK present that
is neither current nor main, `use` succeeds, changes only the symlink (to
`go<v>`), and a subsequent `localVersions` reports that version as current. -/
theorem c7_use_roundtrip (goOut w1 w2 pw w4 v : Str) (g : GobinFS) (s : SdkFS)
    (O : Installer GobinFS SdkFS) (sz : Nat)
    (h4 : splitCh ' ' goOut = [w1, w2, pw, w4])
    (hv : versionREmatch v = true)
    (hvc : v ≠ realCurrent g (trimPref pw (str ("go"))))
    (hvm : v ≠ trimPref pw (str ("go")))
    (hbin : (str ("go") ++ v, false) ∈ g.files)
    (hsdk : (str ("go") ++ v ++ str ("/.unpacked-success"), sz) ∈ s.paths) :
    use RealGobin RealSdk O goOut [v] g s =
      (.ok (), { g with golink := some (str ("go") ++ v) }, s) ∧
    ∃ loc, localVersions RealGobin goOut { g with golink := some (str ("go") ++ v) }
        = .ok loc ∧ loc.current = v := by
  constructor
  · unfold use
    rw [localVersions_real RealGobin rfl rfl g h4]
    dsimp only
    rw [if_neg (versionREmatch_ne_main hv), hv]
    rw [if_neg hvc, if_neg hvm]
    have hcc : Local.contains
        ⟨trimPref pw (str ("go")), realCurrent g (trimPref pw (str ("go"))),
          sortVersions (trimPref pw (str ("go")) :: filesVersions g.files)⟩ v = true :=
      contains_iff.mpr (contains_of_binary _ hv hbin)
    rw [hcc]
    cases hg : g.golink with
    | none => simp [RealGobin, downloaded_real_true hsdk, hg]
    | some t => simp [RealGobin, downloaded_real_true hsdk, hg]
  · refine ⟨_, localVersions_real RealGobin rfl rfl _ h4, ?_⟩
    show realCurrent { g with golink := some (str ("go") ++ v) }
      (trimPref pw (str ("go"))) = v
    exact realCurrent_golink rfl hv

/-- Witness for claim C7: switching from `1.20` to the installed `1.21`
while the main version is `1.22`. -/
theorem c7_use_roundtrip_witness :
    use RealGobin RealSdk noopInstaller (str ("go version go1.22 linux/amd64"))
        [str ("1.21")]
        ⟨[(str ("go1.20"), false), (str ("go1.21"), false)], some (str ("go1.20"))⟩
        ⟨[(str ("go1.21/.unpacked-success"), 0)]⟩ =
      (.ok (), { files := [(str ("go1.20"), false), (str ("go1.21"), false)],
                 golink := some (str ("go") ++ str ("1.21")) },
       ⟨[(str ("go1.21/.unpacked-success"), 0)]⟩) ∧
    ∃ loc, localVersions RealGobin (str ("go version go1.22 linux/amd64"))
        { files := [(str ("go1.20"), false), (str ("go1.21"), false)],
          golink := some (str ("go") ++ str ("1.21")) } = .ok loc ∧
      loc.current = str ("1.21") :=
  c7_use_roundtrip (str ("go version go1.22 linux/amd64"))
    (str ("go")) (str ("version")) (str ("go1.22")) (str ("linux/amd64"))
    (str ("1.21"))
    ⟨[(str ("go1.20"), false), (str ("go1.21"), false)], some (str ("go1.20"))⟩
    ⟨[(str ("go1.21/.unpacked-success"), 0)]⟩ noopInstaller 0
    (by decide) (by decide) (by decide) (by decide) (by decide) (by decide)

/-- Claim C6 (confirmed): removing the current version (current differing
from main, binary installed) succeeds; it removes the `go` symlink (so a
subsequent `localVersions` reports main as current), deletes the binary, and
deletes the SDK directory tree (no surviving sdk path equals `go<v>` or lies
below it). -/
theorem c6_remove_current_postconditions (goOut w1 w2 pw w4 v : Str)
    (g : GobinFS) (s : SdkFS)
    (h4 : splitCh ' ' goOut = [w1, w2, pw, w4])
    (hv : versionREmatch v = true)
    (hvm : v ≠ trimPref pw (str ("go")))
    (hlink : g.golink = some (str ("go") ++ v))
    (hbin : (str ("go") ++ v, false) ∈ g.files) :
    ∃ g2 s2,
      remove RealGobin RealSdk goOut [v] g s = (.ok (), g2, s2) ∧
      g2.golink = none ∧
      (∀ b : Bool, (str ("go") ++ v, b) ∉ g2.files) ∧
      (∀ q ∈ s2.paths, q.1 ≠ str ("go") ++ v ∧
        hasPref (str ("go") ++ v ++ str ("/")) q.1 = false) ∧
      (∃ loc, localVersions RealGobin goOut g2 = .ok loc ∧
        loc.current = trimPref pw (str ("go"))) := by
  refine ⟨⟨g.files.filter (fun e => decide (e.1 ≠ str ("go") ++ v)), none⟩,
    ⟨s.paths.filter (fun q => decide (¬(q.1 = str ("go") ++ v ∨
      hasPref ((str ("go") ++ v) ++ str ("/")) q.1 = true)))⟩, ?_, rfl, ?_, ?_, ?_⟩
  · unfold remove
    rw [localVersions_real RealGobin rfl rfl g h4]
    dsimp only
    rw [if_neg (versionREmatch_ne_main hv), hv]
    have hcc : Local.contains
        ⟨trimPref pw (str ("go")), realCurrent g (trimPref pw (str ("go"))),
          sortVersions (trimPref pw (str ("go")) :: filesVersions g.files)⟩ v = true :=
      contains_iff.mpr (contains_of_binary _ hv hbin)
    rw [hcc, if_neg hvm]
    rw [realCurrent_golink hlink hv]
    simp [RealGobin, RealSdk, hlink, go_append_ne_go hv, hbin]
  · intro b hmem
    obtain ⟨-, hpred⟩ := List.mem_filter.mp hmem
    simp at hpred
  · intro q hq
    obtain ⟨-, hpred⟩ := List.mem_filter.mp hq
    have hnot := of_decide_eq_true hpred
    push_neg at hnot
    obtain ⟨h1, h2⟩ := hnot
    refine ⟨h1, ?_⟩
    cases hpb : hasPref (str ("go") ++ v ++ str ("/")) q.1 with
    | false => rfl
    | true => exact absurd hpb h2
  · refine ⟨_, localVersions_real RealGobin rfl rfl _ h4, ?_⟩
    simp [realCurrent]

/-- Witness for claim C6: removing the current `1.21` while main is `1.22`. -/
theorem c6_remove_current_postconditions_witness :
    ∃ g2 s2,
      remove RealGobin RealSdk (str ("go version go1.22 linux/amd64"))
          [str ("1.21")]
          ⟨[(str ("go1.20"), false), (str ("go1.21"), false)],
            some (str ("go") ++ str ("1.21"))⟩
          ⟨[(str ("go1.21/.unpacked-success"), 0)]⟩ = (.ok (), g2, s2) ∧
      g2.golink = none ∧
      (∀ b : Bool, (str ("go") ++ str ("1.21"), b) ∉ g2.files) ∧
      (∀ q ∈ s2.paths, q.1 ≠ str ("go") ++ str ("1.21") ∧
        hasPref (str ("go") ++ str ("1.21") ++ str ("/")) q.1 = false) ∧
      (∃ loc, localVersions RealGobin (str ("go version go1.22 linux/amd64")) g2
          = .ok loc ∧ loc.current = trimPref (str ("go1.22")) (str ("go"))) :=
  c6_remove_current_postconditions (str ("go version go1.22 linux/amd64"))
    (str ("go")) (str ("version")) (str ("go1.22")) (str ("linux/amd64"))
    (str ("1.21"))
    ⟨[(str ("go1.20"), false), (str ("go1.21"), false)],
      some (str ("go") ++ str ("1.21"))⟩
    ⟨[(str ("go1.21/.unpacked-success"), 0)]⟩
    (by decide) (by decide) (by decide) rfl (by decide)

/- ### Claim C10: non-atomicity of the final symlink swap -/

/-- A bin-directory implementation identical to the concrete one except that
creating a symlink fails; used to observe the state `use` leaves behind when
the final `Symlink` step fails. -/
def symFailGobin : FsxOps GobinFS :=
  { RealGobin with symlink := fun _ _ _ => .error .other }

/-- Claim C10 (confirmed): `use` is not atomic at its final step.  When
switching to an installed non-main version while a `go` symlink exists, the
old symlink is removed (line 81) before the new one is created (line 84), so
if the symlink creation fails, `use` returns an error in a state with no
`go` symlink at all; `localVersions` then reports the main version as
current — not the version that was current before the call. -/
theorem c10_use_symlink_failure_state (goOut w1 w2 pw w4 v t : Str)
    (g : GobinFS) (s : SdkFS) (O : Installer GobinFS SdkFS) (sz : Nat)
    (h4 : splitCh ' ' goOut = [w1, w2, pw, w4])
    (hv : versionREmatch v = true)
    (hlink : g.golink = some t)
    (hvc : v ≠ trimPref (baseName t) (str ("go")))
    (hvm : v ≠ trimPref pw (str ("go")))
    (hcm : trimPref (baseName t) (str ("go")) ≠ trimPref pw (str ("go")))
    (hbin : (str ("go") ++ v, false) ∈ g.files)
    (hsdk : (str ("go") ++ v ++ str ("/.unpacked-success"), sz) ∈ s.paths) :
    use symFailGobin RealSdk O goOut [v] g s =
      (.error (.fs .other), { g with golink := none }, s) ∧
    ({ g with golink := none } : GobinFS).golink = none ∧
    ∃ loc, localVersions RealGobin goOut { g with golink := none } = .ok loc ∧
      loc.current = trimPref pw (str ("go")) ∧
      loc.current ≠ trimPref (baseName t) (str ("go")) := by
  refine ⟨?_, rfl, ?_⟩
  · unfold use
    rw [localVersions_real symFailGobin rfl rfl g h4]
    dsimp only
    rw [if_neg (versionREmatch_ne_main hv), hv]
    have hrc : realCurrent g (trimPref pw (str ("go")))
        = trimPref (baseName t) (str ("go")) := by
      simp [realCurrent, hlink]
    rw [hrc, if_neg hvc, if_neg hvm]
    have hcc : Local.contains
        ⟨trimPref pw (str ("go")), trimPref (baseName t) (str ("go")),
          sortVersions (trimPref pw (str ("go")) :: filesVersions g.files)⟩ v = true :=
      contains_iff.mpr (contains_of_binary _ hv hbin)
    rw [hcc]
    simp [symFailGobin, RealGobin, downloaded_real_true hsdk, hlink]
  · refine ⟨_, localVersions_real RealGobin rfl rfl _ h4, ?_, ?_⟩
    · simp [realCurrent]
    · show realCurrent { g with golink := none } (trimPref pw (str ("go"))) ≠ _
      simpa [realCurrent] using Ne.symm hcm

/-- Witness for claim C10: switching from current `1.20` to installed `1.21`
with main `1.22` while symlink creation fails. -/
theorem c10_use_symlink_failure_state_witness :
    use symFailGobin RealSdk noopInstaller (str ("go version go1.22 linux/amd64"))
        [str ("1.21")]
        ⟨[(str ("go1.20"), false), (str ("go1.21"), false)], some (str ("go1.20"))⟩
        ⟨[(str ("go1.21/.unpacked-success"), 0)]⟩ =
      (.error (.fs .other),
       { files := [(str ("go1.20"), false), (str ("go1.21"), false)], golink := none },
       ⟨[(str ("go1.21/.unpacked-success"), 0)]⟩) ∧
    ({ files := [(str ("go1.20"), false), (str ("go1.21"), false)],
       golink := none } : GobinFS).golink = none ∧
    ∃ loc, localVersions RealGobin (str ("go version go1.22 linux/amd64"))
        { files := [(str ("go1.20"), false), (str ("go1.21"), false)],
          golink := none } = .ok loc ∧
      loc.current = trimPref (str ("go1.22")) (str ("go")) ∧
      loc.current ≠ trimPref (baseName (str ("go1.20"))) (str ("go")) :=
  c10_use_symlink_failure_state (str ("go version go1.22 linux/amd64"))
    (str ("go")) (str ("version")) (str ("go1.22")) (str ("linux/amd64"))
    (str ("1.21")) (str ("go1.20"))
    ⟨[(str ("go1.20"), false), (str ("go1.21"), false)], some (str ("go1.20"))⟩
    ⟨[(str ("go1.21/.unpacked-success"), 0)]⟩ noopInstaller 0
    (by decide) (by decide) rfl (by decide) (by decide) (by decide) (by decide)
    (by decide)
